import Mathlib

/-!
Verification of the GemFlow orchestration core.

Shallow embedding of the reasoning state machine (src/graph/graph.ts,
exported through src/index.ts), the policy-wrapped model invocation path
(callModelTextRaw, ensureRateLimit, retryAsync), the cache-key construction
(src/core/utils.ts stableStringify, src/core/cache.ts makeCacheKey), the
tool-call execution (src/core/tools.ts executeToolCalls) and the public
facade (src/run.ts run/stream).

Asynchronous effects are modelled by explicit state passing: time is a
natural-number clock advanced by sleeps, the event bus is a list of emitted
events, promise rejection is the `Except.error` case, and the model client
is a function from the invocation index to a response or an error.
-/

/-- JSON-like values, as produced by JSON.stringify over the plain data the
orchestrator serializes (strings, numbers, arrays, objects, null).
Objects are field lists in insertion order, mirroring JS objects. -/
inductive JVal where
  | null : JVal
  | str (s : String) : JVal
  | num (n : Int) : JVal
  | arr (xs : List JVal) : JVal
  | obj (fields : List (String × JVal)) : JVal

/-- Ordering of object fields by key, as used by Object.keys(input).sort()
in sortKeys (src/core/utils.ts). -/
def keyLE (a b : String × JVal) : Prop := a.1 ≤ b.1

instance : DecidableRel keyLE := fun a b => inferInstanceAs (Decidable (a.1 ≤ b.1))

instance : IsTotal (String × JVal) keyLE := ⟨fun a b => le_total a.1 b.1⟩

instance : IsTrans (String × JVal) keyLE := ⟨fun _ _ _ h1 h2 => le_trans h1 h2⟩

mutual

/-- sortKeys from src/core/utils.ts: recursively sort object keys
(arrays keep their order, only object field order is normalized). -/
def sortKeys : JVal → JVal
  | .null => .null
  | .str s => .str s
  | .num n => .num n
  | .arr xs => .arr (sortKeysArr xs)
  | .obj fs => .obj (List.insertionSort keyLE (sortKeysFields fs))

/-- Recursion of sortKeys into array elements. -/
def sortKeysArr : List JVal → List JVal
  | [] => []
  | x :: xs => sortKeys x :: sortKeysArr xs

/-- Recursion of sortKeys into object field values (keys untouched). -/
def sortKeysFields : List (String × JVal) → List (String × JVal)
  | [] => []
  | (k, v) :: fs => (k, sortKeys v) :: sortKeysFields fs

end

mutual

/-- Serialization of a JVal in the style of JSON.stringify. -/
def serializeJVal : JVal → String
  | .null => "null"
  | .str s => "\"" ++ s ++ "\""
  | .num n => toString n
  | .arr xs => "[" ++ serializeArr xs ++ "]"
  | .obj fs => "\x7b" ++ serializeFields fs ++ "\x7d"

/-- Comma-joined serialization of array elements. -/
def serializeArr : List JVal → String
  | [] => ""
  | [x] => serializeJVal x
  | x :: xs => serializeJVal x ++ "," ++ serializeArr xs

/-- Comma-joined serialization of object fields. -/
def serializeFields : List (String × JVal) → String
  | [] => ""
  | [(k, v)] => "\"" ++ k ++ "\":" ++ serializeJVal v
  | (k, v) :: fs => "\"" ++ k ++ "\":" ++ serializeJVal v ++ "," ++ serializeFields fs

end

/-- stableStringify from src/core/utils.ts: JSON.stringify(sortKeys(obj)). -/
def stableStringify (v : JVal) : String := serializeJVal (sortKeys v)

/-- makeCacheKey from src/core/cache.ts: stableStringify of a record of parts. -/
def makeCacheKey (parts : List (String × JVal)) : String := stableStringify (.obj parts)

theorem sortKeysFields_eq_map (fs : List (String × JVal)) :
    sortKeysFields fs = fs.map (fun p => (p.1, sortKeys p.2)) := by
  induction fs with
  | nil => rfl
  | cons p fs ih => cases p; simp [sortKeysFields, ih]

theorem map_fst_sortKeysFields (fs : List (String × JVal)) :
    (sortKeysFields fs).map Prod.fst = fs.map Prod.fst := by
  rw [sortKeysFields_eq_map, List.map_map]
  rfl

instance : IsAntisymm (String × JVal) (fun a b => a.1 < b.1) :=
  ⟨fun _ _ h1 h2 => absurd (h1.trans h2) (lt_irrefl _)⟩

theorem pairwise_key_lt {l : List (String × JVal)}
    (hle : l.Pairwise keyLE) (hne : l.Pairwise fun a b => a.1 ≠ b.1) :
    l.Pairwise fun a b => a.1 < b.1 := by
  induction l with
  | nil => exact List.Pairwise.nil
  | cons x xs ih =>
    rcases List.pairwise_cons.mp hle with ⟨hle1, hle2⟩
    rcases List.pairwise_cons.mp hne with ⟨hne1, hne2⟩
    exact List.pairwise_cons.mpr
      ⟨fun b hb => lt_of_le_of_ne (hle1 b hb) (hne1 b hb), ih hle2 hne2⟩

theorem insertionSort_key_eq_of_perm {l1 l2 : List (String × JVal)}
    (hp : l1.Perm l2) (hnd : (l1.map Prod.fst).Nodup) :
    List.insertionSort keyLE l1 = List.insertionSort keyLE l2 := by
  have hs1 : (List.insertionSort keyLE l1).Sorted keyLE := List.sorted_insertionSort keyLE l1
  have hs2 : (List.insertionSort keyLE l2).Sorted keyLE := List.sorted_insertionSort keyLE l2
  have hp1 : (List.insertionSort keyLE l1).Perm l1 := List.perm_insertionSort keyLE l1
  have hp2 : (List.insertionSort keyLE l2).Perm l2 := List.perm_insertionSort keyLE l2
  have hperm : (List.insertionSort keyLE l1).Perm (List.insertionSort keyLE l2) :=
    (hp1.trans hp).trans hp2.symm
  have hnd1 : ((List.insertionSort keyLE l1).map Prod.fst).Nodup :=
    ((hp1.map Prod.fst).nodup_iff).mpr hnd
  have hnd2 : ((List.insertionSort keyLE l2).map Prod.fst).Nodup :=
    ((hperm.map Prod.fst).nodup_iff).mp hnd1
  have hlt1 : (List.insertionSort keyLE l1).Pairwise fun a b => a.1 < b.1 :=
    pairwise_key_lt hs1 (List.pairwise_map.mp hnd1)
  have hlt2 : (List.insertionSort keyLE l2).Pairwise fun a b => a.1 < b.1 :=
    pairwise_key_lt hs2 (List.pairwise_map.mp hnd2)
  exact List.eq_of_perm_of_sorted hperm hlt1 hlt2

/-- The cache key is invariant under reordering of the record's fields
(insertion-order independence of stableStringify, given distinct keys). -/
theorem makeCacheKey_perm (fs fs' : List (String × JVal))
    (hp : fs.Perm fs') (hnd : (fs.map Prod.fst).Nodup) :
    makeCacheKey fs = makeCacheKey fs' := by
  unfold makeCacheKey stableStringify
  have hmap : (sortKeysFields fs).Perm (sortKeysFields fs') := by
    rw [sortKeysFields_eq_map, sortKeysFields_eq_map]
    exact hp.map _
  have hnd2 : ((sortKeysFields fs).map Prod.fst).Nodup := by
    rw [map_fst_sortKeysFields]; exact hnd
  have : List.insertionSort keyLE (sortKeysFields fs)
      = List.insertionSort keyLE (sortKeysFields fs') :=
    insertionSort_key_eq_of_perm hmap hnd2
  simp [sortKeys, this]

/-- Observable events emitted on the event bus (src/core/types.ts EventKind),
restricted to the kinds the verified properties mention. -/
inductive Ev where
  | runStart : Ev
  | runEnd : Ev
  | nodeEnter (node : String) (step : Nat) : Ev
  | nodeExit (node : String) (step : Nat) : Ev
  | modelCallEnd : Ev
  | retryEv (attempt : Nat) (error : String) : Ev
  | ratelimitDelay (waitMs : Nat) : Ev
  | cacheHit (key : String) : Ev
deriving DecidableEq, Repr

/-- Whether an event is a retry event. -/
def Ev.isRetry : Ev → Bool
  | .retryEv _ _ => true
  | _ => false

/-- Whether an event is a model:call:end event. -/
def Ev.isModelCallEnd : Ev → Bool
  | .modelCallEnd => true
  | _ => false

/-- Whether an event is a ratelimit:delay event. -/
def Ev.isRatelimitDelay : Ev → Bool
  | .ratelimitDelay _ => true
  | _ => false

/-- The five phases of the reasoning graph (buildReasoningGraph nodes). -/
inductive Phase where
  | plan : Phase
  | act : Phase
  | reflect : Phase
  | validate : Phase
  | converge : Phase
deriving DecidableEq, Repr

/-- The channels of the LangGraph state that drive the conditional edges:
current phase, step counter, step ceiling, validity flag. -/
structure MState where
  phase : Phase
  step : Nat
  maxSteps : Nat
  isValid : Bool
deriving DecidableEq, Repr

/-- One transition of the reasoning graph: execute the node the machine is at
(act increments `step` by one, validate sets `isValid` from the outcome
`oracle s.step` of its check) and follow the edge chosen by the conditional
edge functions of buildReasoningGraph (src/graph/graph.ts lines 416-441).
LangGraph hands the conditional the state as updated by the node, so the act
conditional reads the already-incremented step. -/
def reasoningStep (oracle : Nat → Bool) (s : MState) : MState :=
  match s.phase with
  | .plan => { s with phase := .act }
  | .act =>
    let s1 : MState := { s with step := s.step + 1 }
    if s1.step ≥ s1.maxSteps then { s1 with phase := .validate }
    else { s1 with phase := .reflect }
  | .reflect =>
    if s.step ≥ s.maxSteps - 1 then { s with phase := .validate }
    else { s with phase := .act }
  | .validate =>
    let s1 : MState := { s with isValid := oracle s.step }
    if s1.isValid then { s1 with phase := .converge }
    else if s1.step ≥ s1.maxSteps then { s1 with phase := .converge }
    else { s1 with phase := .act }
  | .converge => s

/-- Initial state of a run: entry node plan, step counter 0 (run.ts line 120). -/
def initState (n : Nat) : MState := ⟨.plan, 0, n, false⟩

/-- Iterate the machine from an arbitrary state. -/
def stepsFrom (oracle : Nat → Bool) (s : MState) : Nat → MState
  | 0 => s
  | k + 1 => reasoningStep oracle (stepsFrom oracle s k)

/-- The trace of one run with ceiling n: state after k transitions. -/
def iterateMachine (oracle : Nat → Bool) (n k : Nat) : MState :=
  stepsFrom oracle (initState n) k

/-- Number of entries into the act node within the first k states of the trace. -/
def actEntries (oracle : Nat → Bool) (n k : Nat) : Nat :=
  ((List.range k).filter
    (fun i => (iterateMachine oracle n i).phase == Phase.act)).length

/-- Invariant carried along the trace: the ceiling channel is constant, the
step counter never exceeds it, and at plan or act the counter is strictly
below it. -/
def stateOK (n : Nat) (s : MState) : Prop :=
  s.maxSteps = n ∧ s.step ≤ n ∧
    ((s.phase = Phase.plan ∨ s.phase = Phase.act) → s.step < n)

theorem stateOK_init (n : Nat) (hn : 0 < n) : stateOK n (initState n) :=
  ⟨rfl, Nat.zero_le n, fun _ => hn⟩

theorem stateOK_mk (n : Nat) (ph : Phase) (st ms : Nat) (v : Bool) :
    stateOK n ⟨ph, st, ms, v⟩ ↔
      (ms = n ∧ st ≤ n ∧ ((ph = Phase.plan ∨ ph = Phase.act) → st < n)) :=
  Iff.rfl

theorem stateOK_step (oracle : Nat → Bool) (n : Nat) (s : MState)
    (hOK : stateOK n s) : stateOK n (reasoningStep oracle s) := by
  rcases s with ⟨ph, st, ms, v⟩
  rw [stateOK_mk] at hOK
  obtain ⟨hms, hle, hlt⟩ := hOK
  cases ph
  case plan =>
    rw [show reasoningStep oracle ⟨Phase.plan, st, ms, v⟩ = ⟨Phase.act, st, ms, v⟩ from rfl,
      stateOK_mk]
    exact ⟨hms, hle, fun _ => hlt (Or.inl rfl)⟩
  case act =>
    have h0 : st < n := hlt (Or.inr rfl)
    simp only [reasoningStep]
    split_ifs with h <;> rw [stateOK_mk] <;>
      exact ⟨hms, by omega, by simp⟩
  case reflect =>
    simp only [reasoningStep]
    split_ifs with h <;> rw [stateOK_mk]
    · exact ⟨hms, hle, by simp⟩
    · exact ⟨hms, hle, fun _ => by omega⟩
  case validate =>
    simp only [reasoningStep]
    split_ifs with h1 h2 <;> rw [stateOK_mk]
    · exact ⟨hms, hle, by simp⟩
    · exact ⟨hms, hle, by simp⟩
    · exact ⟨hms, hle, fun _ => by omega⟩
  case converge =>
    rw [show reasoningStep oracle ⟨Phase.converge, st, ms, v⟩ = ⟨Phase.converge, st, ms, v⟩
      from rfl, stateOK_mk]
    exact ⟨hms, hle, by simp⟩

theorem stateOK_iterate (oracle : Nat → Bool) (n : Nat) (hn : 0 < n) :
    ∀ k, stateOK n (iterateMachine oracle n k) := by
  intro k
  induction k with
  | zero => exact stateOK_init n hn
  | succ k ih => exact stateOK_step oracle n _ ih

theorem iterate_step_succ (oracle : Nat → Bool) (n k : Nat) :
    (iterateMachine oracle n (k + 1)).step =
      (iterateMachine oracle n k).step +
        (if (iterateMachine oracle n k).phase = Phase.act then 1 else 0) := by
  show (reasoningStep oracle (iterateMachine oracle n k)).step = _
  generalize iterateMachine oracle n k = s
  rcases s with ⟨ph, st, ms, v⟩
  cases ph <;> simp only [reasoningStep] <;> split_ifs <;> simp_all

theorem actEntries_eq_step (oracle : Nat → Bool) (n : Nat) :
    ∀ k, actEntries oracle n k = (iterateMachine oracle n k).step := by
  intro k
  induction k with
  | zero => rfl
  | succ k ih =>
    have h1 : actEntries oracle n (k + 1) = actEntries oracle n k +
        (if (iterateMachine oracle n k).phase = Phase.act then 1 else 0) := by
      unfold actEntries
      rw [List.range_succ, List.filter_append, List.length_append]
      congr 1
      by_cases h : (iterateMachine oracle n k).phase = Phase.act
      · simp [h]
      · simp [h]
    rw [h1, ih, iterate_step_succ]

/-- Rank used by the termination measure of the reasoning graph. -/
def phaseRank : Phase → Nat
  | .act => 0
  | .converge => 0
  | .validate => 1
  | .reflect => 2
  | .plan => 3

/-- Termination measure of the reasoning graph. -/
def machineMeasure (s : MState) : Nat :=
  3 * (s.maxSteps - s.step) + phaseRank s.phase

theorem machineMeasure_mk (ph : Phase) (st ms : Nat) (v : Bool) :
    machineMeasure ⟨ph, st, ms, v⟩ = 3 * (ms - st) + phaseRank ph :=
  rfl

theorem measure_decreases (oracle : Nat → Bool) (n : Nat) (s : MState)
    (hOK : stateOK n s) (hne : s.phase ≠ Phase.converge) :
    machineMeasure (reasoningStep oracle s) < machineMeasure s := by
  rcases s with ⟨ph, st, ms, v⟩
  rw [stateOK_mk] at hOK
  obtain ⟨hms, hle, hlt⟩ := hOK
  cases ph
  case plan =>
    have h0 : st < n := hlt (Or.inl rfl)
    simp only [reasoningStep, machineMeasure_mk, phaseRank]
    omega
  case act =>
    have h0 : st < n := hlt (Or.inr rfl)
    simp only [reasoningStep]
    split_ifs with h <;> simp only [machineMeasure_mk, phaseRank] <;> omega
  case reflect =>
    simp only [reasoningStep]
    split_ifs with h <;> simp only [machineMeasure_mk, phaseRank] <;> omega
  case validate =>
    simp only [reasoningStep]
    split_ifs with h1 h2 <;> simp only [machineMeasure_mk, phaseRank] <;> omega
  case converge =>
    exact absurd rfl hne

theorem stepsFrom_succ_shift (oracle : Nat → Bool) (s : MState) (j : Nat) :
    stepsFrom oracle s (j + 1) = stepsFrom oracle (reasoningStep oracle s) j := by
  induction j with
  | zero => rfl
  | succ j ih =>
    show reasoningStep oracle (stepsFrom oracle s (j + 1)) = _
    rw [ih]
    rfl

theorem reach_converge (oracle : Nat → Bool) (n : Nat) :
    ∀ fuel s, stateOK n s → machineMeasure s ≤ fuel →
      ∃ j, (stepsFrom oracle s j).phase = Phase.converge := by
  intro fuel
  induction fuel with
  | zero =>
    intro s hOK hm
    by_cases hc : s.phase = Phase.converge
    · exact ⟨0, hc⟩
    · exact absurd (measure_decreases oracle n s hOK hc) (by omega)
  | succ fuel ih =>
    intro s hOK hm
    by_cases hc : s.phase = Phase.converge
    · exact ⟨0, hc⟩
    · have hdec := measure_decreases oracle n s hOK hc
      obtain ⟨j, hj⟩ := ih (reasoningStep oracle s) (stateOK_step oracle n s hOK) (by omega)
      exact ⟨j + 1, by rw [stepsFrom_succ_shift]; exact hj⟩

theorem converge_only_from_validate (oracle : Nat → Bool) (s : MState)
    (h : (reasoningStep oracle s).phase = Phase.converge) :
    s.phase = Phase.validate ∨ s.phase = Phase.converge := by
  rcases s with ⟨ph, st, ms, v⟩
  cases ph
  case plan => simp [reasoningStep] at h
  case act =>
    simp only [reasoningStep] at h
    split_ifs at h
  case reflect =>
    simp only [reasoningStep] at h
    split_ifs at h
  case validate => exact Or.inl rfl
  case converge => exact Or.inr rfl

/-- C1: for every run with a finite positive maxSteps N, the reasoning state
machine enters the act node at most N times and reaches converge (via
validate): every trace prefix contains at most N act entries, act is only
entered while the step counter is below N, each entry into act increments the
step counter by exactly one, the machine reaches converge for every validity
oracle, and converge is only entered from validate. -/
theorem reasoningGraph_act_bound (n : Nat) (oracle : Nat → Bool) (hn : 0 < n) :
    (∃ k, (iterateMachine oracle n k).phase = Phase.converge) ∧
    (∀ k, actEntries oracle n k ≤ n) ∧
    (∀ k, (iterateMachine oracle n k).phase = Phase.act →
      (iterateMachine oracle n k).step < n) ∧
    (∀ k, (iterateMachine oracle n k).phase = Phase.act →
      (iterateMachine oracle n (k + 1)).step = (iterateMachine oracle n k).step + 1) ∧
    (∀ k, (iterateMachine oracle n (k + 1)).phase = Phase.converge →
      (iterateMachine oracle n k).phase = Phase.validate ∨
      (iterateMachine oracle n k).phase = Phase.converge) := by
  refine ⟨?_, ?_, ?_, ?_, ?_⟩
  · exact reach_converge oracle n (machineMeasure (initState n)) (initState n)
      (stateOK_init n hn) le_rfl
  · intro k
    rw [actEntries_eq_step]
    exact (stateOK_iterate oracle n hn k).2.1
  · intro k hk
    exact (stateOK_iterate oracle n hn k).2.2 (Or.inr hk)
  · intro k hk
    rw [iterate_step_succ, if_pos hk]
  · intro k hk
    exact converge_only_from_validate oracle _ hk

/-- Witness for C1 at the concrete ceiling 2 and an always-valid oracle. -/
theorem reasoningGraph_act_bound_witness :
    0 < 2 ∧
    ((∃ k, (iterateMachine (fun _ => true) 2 k).phase = Phase.converge) ∧
    (∀ k, actEntries (fun _ => true) 2 k ≤ 2) ∧
    (∀ k, (iterateMachine (fun _ => true) 2 k).phase = Phase.act →
      (iterateMachine (fun _ => true) 2 k).step < 2) ∧
    (∀ k, (iterateMachine (fun _ => true) 2 k).phase = Phase.act →
      (iterateMachine (fun _ => true) 2 (k + 1)).step
        = (iterateMachine (fun _ => true) 2 k).step + 1) ∧
    (∀ k, (iterateMachine (fun _ => true) 2 (k + 1)).phase = Phase.converge →
      (iterateMachine (fun _ => true) 2 k).phase = Phase.validate ∨
      (iterateMachine (fun _ => true) 2 k).phase = Phase.converge)) :=
  ⟨by decide, reasoningGraph_act_bound 2 (fun _ => true) (by decide)⟩

/-- Characters-level trim of leading and trailing whitespace, modelling
JS String.prototype.trim (and Lean's String.trim, which does not reduce
in the kernel). -/
def jsTrimChars (cs : List Char) : List Char :=
  ((cs.dropWhile Char.isWhitespace).reverse.dropWhile Char.isWhitespace).reverse

/-- String-level trim of leading and trailing whitespace. -/
def jsTrim (s : String) : String := String.mk (jsTrimChars s.data)

/-- Result of the validate node (src/graph/graph.ts lines 371-406):
validity flag, structured object, number of structured model invocations
performed, and whether tools were bound on that invocation. -/
structure ValidateOut where
  isValid : Bool
  finalObject : Option JVal
  modelCalls : Nat
  toolsBound : Bool

/-- The validate node. If the run input declared a schema, it calls
invokeWithStructuredOutput on a plain createChatModel (no bindTools) and sets
isValid to true unconditionally; otherwise isValid is the JS truthiness of
`state.candidateAnswer && state.candidateAnswer.trim().length > 0` and no
model call happens. `structuredResp` is the object the model client returns
for the structured call. -/
def validateNode (schema : Option JVal) (structuredResp : JVal)
    (candidateAnswer : Option String) : ValidateOut :=
  match schema with
  | some _ =>
    { isValid := true, finalObject := some structuredResp,
      modelCalls := 1, toolsBound := false }
  | none =>
    { isValid := match candidateAnswer with
        | none => false
        | some c => decide (0 < (jsTrim c).length),
      finalObject := none, modelCalls := 0, toolsBound := false }

/-- C3: with a declared schema, validate requests a structured object from the
model with no tools bound and sets the validity flag to true unconditionally;
without a schema it makes no model call and sets the flag to true exactly when
the candidate answer is non-empty after trimming. -/
theorem validateNode_spec (σ : JVal) (structuredResp : JVal)
    (candidateAnswer : Option String) :
    (validateNode (some σ) structuredResp candidateAnswer).isValid = true ∧
    (validateNode (some σ) structuredResp candidateAnswer).finalObject
      = some structuredResp ∧
    (validateNode (some σ) structuredResp candidateAnswer).modelCalls = 1 ∧
    (validateNode (some σ) structuredResp candidateAnswer).toolsBound = false ∧
    (validateNode none structuredResp candidateAnswer).modelCalls = 0 ∧
    (validateNode none structuredResp candidateAnswer).finalObject = none ∧
    ((validateNode none structuredResp candidateAnswer).isValid = true ↔
      ¬ (jsTrim (candidateAnswer.getD "") = "")) := by
  refine ⟨rfl, rfl, rfl, rfl, rfl, rfl, ?_⟩
  cases candidateAnswer with
  | none =>
    simp [validateNode, jsTrim, jsTrimChars]
  | some c =>
    simp only [validateNode, Option.getD_some, decide_eq_true_eq, jsTrim]
    rw [String.ext_iff, String.length_mk]
    rw [show ("" : String).data = [] from rfl]
    exact List.length_pos

/-- Outcome of retryAsync: the final result, the retry events emitted, the
sleep durations performed between attempts, and the number of invocations of
the wrapped function. -/
structure RetryOutcome (α : Type) where
  result : Except String α
  events : List Ev
  sleeps : List Nat
  invocations : Nat

/-- The while(true) loop body of retryAsync (src/graph/graph.ts lines
527-558). `fn i` is the outcome of the (i+1)-th invocation of the wrapped
thunk (the timeout-wrapped model call); `attempt` counts failures so far,
`delay` is the current backoff delay. On failure the attempt counter is
incremented; if it reached `max` the error is rethrown, otherwise a retry
event carrying the attempt number and the error message is emitted, the loop
sleeps min(delay, maxDelay) and continues with delay * factor. -/
def retryLoop (fn : Nat → Except String α) (max factor maxDelay : Nat) :
    Nat → Nat → RetryOutcome α
  | attempt, delay =>
    match fn attempt with
    | .ok v => ⟨.ok v, [], [], 1⟩
    | .error e =>
      if h : attempt + 1 ≥ max then ⟨.error e, [], [], 1⟩
      else
        let rest := retryLoop fn max factor maxDelay (attempt + 1) (delay * factor)
        ⟨rest.result, .retryEv (attempt + 1) e :: rest.events,
          min delay maxDelay :: rest.sleeps, rest.invocations + 1⟩
termination_by attempt _ => max - attempt
decreasing_by omega

/-- retryAsync (src/graph/graph.ts lines 527-558): run the loop from attempt
count 0 and the initial delay. -/
def retryAsync (fn : Nat → Except String α) (max initial factor maxDelay : Nat) :
    RetryOutcome α :=
  retryLoop fn max factor maxDelay 0 initial

/-- A model client that fails k times with error e and then returns v. -/
def failThenOk (k : Nat) (e : String) (v : α) : Nat → Except String α :=
  fun i => if i < k then .error e else .ok v

theorem retryLoop_failThenOk (k max factor maxDelay : Nat) (e : String) (v : α)
    (hmax : k < max) :
    ∀ j attempt delay, attempt + j = k →
      retryLoop (failThenOk k e v) max factor maxDelay attempt delay =
        ⟨.ok v,
         (List.range j).map (fun i => Ev.retryEv (attempt + 1 + i) e),
         (List.range j).map (fun i => min (delay * factor ^ i) maxDelay),
         j + 1⟩ := by
  intro j
  induction j with
  | zero =>
    intro attempt delay hsum
    have hk : attempt = k := by omega
    subst hk
    rw [retryLoop]
    simp [failThenOk]
  | succ j ih =>
    intro attempt delay hsum
    have hlt : attempt < k := by omega
    have hnm : ¬ (attempt + 1 ≥ max) := by omega
    rw [retryLoop]
    simp only [failThenOk, if_pos hlt, dif_neg hnm]
    rw [ih (attempt + 1) (delay * factor) (by omega)]
    have hE : Ev.retryEv (attempt + 1) e ::
        (List.range j).map (fun i => Ev.retryEv (attempt + 1 + 1 + i) e) =
        (List.range (j + 1)).map (fun i => Ev.retryEv (attempt + 1 + i) e) := by
      rw [List.range_succ_eq_map, List.map_cons, List.map_map]
      congr 1
      apply List.map_congr_left
      intro i _
      simp only [Function.comp_apply]
      congr 1
      omega
    have hS : min delay maxDelay ::
        (List.range j).map (fun i => min (delay * factor * factor ^ i) maxDelay) =
        (List.range (j + 1)).map (fun i => min (delay * factor ^ i) maxDelay) := by
      rw [List.range_succ_eq_map, List.map_cons, List.map_map]
      congr 1
      · rw [pow_zero, mul_one]
      · apply List.map_congr_left
        intro i _
        simp only [Function.comp_apply]
        congr 1
        rw [pow_succ]
        ring
    rw [hE, hS]

theorem retryLoop_allFail (e : String) (max factor maxDelay : Nat) :
    ∀ j attempt delay, attempt + j + 1 = max →
      retryLoop (fun _ => (Except.error e : Except String α)) max factor maxDelay
          attempt delay =
        ⟨.error e,
         (List.range j).map (fun i => Ev.retryEv (attempt + 1 + i) e),
         (List.range j).map (fun i => min (delay * factor ^ i) maxDelay),
         j + 1⟩ := by
  intro j
  induction j with
  | zero =>
    intro attempt delay hsum
    rw [retryLoop]
    simp only []
    rw [dif_pos (by omega)]
    simp
  | succ j ih =>
    intro attempt delay hsum
    have hnm : ¬ (attempt + 1 ≥ max) := by omega
    rw [retryLoop]
    simp only [dif_neg hnm]
    rw [ih (attempt + 1) (delay * factor) (by omega)]
    have hE : Ev.retryEv (attempt + 1) e ::
        (List.range j).map (fun i => Ev.retryEv (attempt + 1 + 1 + i) e) =
        (List.range (j + 1)).map (fun i => Ev.retryEv (attempt + 1 + i) e) := by
      rw [List.range_succ_eq_map, List.map_cons, List.map_map]
      congr 1
      apply List.map_congr_left
      intro i _
      simp only [Function.comp_apply]
      congr 1
      omega
    have hS : min delay maxDelay ::
        (List.range j).map (fun i => min (delay * factor * factor ^ i) maxDelay) =
        (List.range (j + 1)).map (fun i => min (delay * factor ^ i) maxDelay) := by
      rw [List.range_succ_eq_map, List.map_cons, List.map_map]
      congr 1
      · rw [pow_zero, mul_one]
      · apply List.map_congr_left
        intro i _
        simp only [Function.comp_apply]
        congr 1
        rw [pow_succ]
        ring
    rw [hE, hS]

/-- Events of the retry loop are retry events only. -/
theorem retryLoop_events_retry (fn : Nat → Except String α) (max factor maxDelay : Nat) :
    ∀ fuel attempt delay, max - attempt ≤ fuel →
      ∀ ev ∈ (retryLoop fn max factor maxDelay attempt delay).events,
        ev.isRetry = true := by
  intro fuel
  induction fuel with
  | zero =>
    intro attempt delay hfuel ev hev
    have hm : attempt + 1 ≥ max := by omega
    rw [retryLoop] at hev
    cases hfa : fn attempt with
    | ok v => rw [hfa] at hev; simp at hev
    | error e =>
      rw [hfa] at hev
      simp [hm] at hev
  | succ fuel ih =>
    intro attempt delay hfuel ev hev
    rw [retryLoop] at hev
    cases hfa : fn attempt with
    | ok v => rw [hfa] at hev; simp at hev
    | error e =>
      rw [hfa] at hev
      by_cases hm : attempt + 1 ≥ max
      · simp [hm] at hev
      · simp only [dif_neg hm, List.mem_cons] at hev
        cases hev with
        | inl h => rw [h]; rfl
        | inr h => exact ih (attempt + 1) (delay * factor) (by omega) ev h

/-- Policy parameters for one policy-wrapped call, resolved from
ctx.params (createLibraryA options merged with per-run overrides). -/
structure PolicyCfg where
  rateEnabled : Bool
  rpm : Option Nat
  retryMax : Nat
  initialDelayMs : Nat
  factor : Nat
  maxDelayMs : Nat

/-- Mutable context shared by policy-wrapped calls: the response cache
(most recent entry first, List.lookup finds the latest set), the rate
limiter's last recorded call time, and the current clock. -/
structure CallSt (α : Type) where
  cache : List (String × α)
  lastAt : Option Nat
  now : Nat
deriving Repr

/-- ensureRateLimit (src/graph/graph.ts lines 506-525): when enabled with a
positive rpm, compute the minimal interval ceil(60000 / rpm); if less time
has elapsed since the limiter's last recorded call, emit ratelimit:delay and
sleep the remainder (the clock advances by the wait), then record the new
last-call time. -/
def ensureRateLimit (cfg : PolicyCfg) (st : CallSt α) : List Ev × CallSt α :=
  if ¬ cfg.rateEnabled then ([], st)
  else
    match cfg.rpm with
    | none => ([], st)
    | some rpm =>
      if rpm = 0 then ([], st)
      else
        let minIntervalMs := (60000 + rpm - 1) / rpm
        let last := st.lastAt.getD 0
        let wait := minIntervalMs - (st.now - last)
        if 0 < wait then
          ([Ev.ratelimitDelay wait],
            { st with now := st.now + wait, lastAt := some (st.now + wait) })
        else
          ([], { st with lastAt := some st.now })

/-- A chat message as serialized into the cache key of callModelTextRaw:
LangChain message type tag, content, optional tool name (an undefined name
is dropped by JSON.stringify). -/
structure Msg where
  type : String
  content : String
  name : Option String

/-- JSON shape of one message inside the cache key. -/
def msgToJVal (m : Msg) : JVal :=
  .obj ([("_type", JVal.str m.type), ("content", JVal.str m.content)] ++
    (match m.name with
     | some nm => [("name", JVal.str nm)]
     | none => []))

/-- The cache key computed by callModelTextRaw (src/graph/graph.ts lines
465-474): makeCacheKey over the phase tag, model id, temperature and the
serialized message list. -/
def cacheKeyOfCall (tag model : String) (temperature : JVal) (msgs : List Msg) : String :=
  makeCacheKey
    [("tag", JVal.str tag),
     ("model", JVal.str model),
     ("temperature", temperature),
     ("messages", JVal.arr (msgs.map msgToJVal))]

/-- Outcome of a policy-wrapped model call. -/
structure CallOut (α : Type) where
  result : Except String α
  fromCache : Bool
  events : List Ev
  invocations : Nat
  st : CallSt α

/-- callModelTextRaw (src/graph/graph.ts lines 458-504): cache lookup (on a
hit, emit cache:hit and return the cached response immediately), else rate
limit, then the retry loop around the timeout-wrapped model invocation
(`fn i` is the outcome of the (i+1)-th invocation: a response, or the message
of the rejection - a model error, "Timeout after Nms", or "Aborted"); on
success store the response in the cache and emit model:call:end. The clock
advances by the backoff sleeps. -/
def callModelTextRaw (cfg : PolicyCfg) (st : CallSt α)
    (tag model : String) (temperature : JVal) (msgs : List Msg)
    (fn : Nat → Except String α) : CallOut α :=
  let cacheKey := cacheKeyOfCall tag model temperature msgs
  match st.cache.lookup cacheKey with
  | some cached =>
    { result := .ok cached, fromCache := true,
      events := [Ev.cacheHit cacheKey], invocations := 0, st := st }
  | none =>
    let rl := ensureRateLimit cfg st
    let r := retryAsync fn cfg.retryMax cfg.initialDelayMs cfg.factor cfg.maxDelayMs
    match r.result with
    | .ok v =>
      { result := .ok v, fromCache := false,
        events := rl.1 ++ r.events ++ [Ev.modelCallEnd],
        invocations := r.invocations,
        st := { rl.2 with
          now := rl.2.now + r.sleeps.sum,
          cache := (cacheKey, v) :: rl.2.cache } }
    | .error err =>
      { result := .error err, fromCache := false,
        events := rl.1 ++ r.events,
        invocations := r.invocations,
        st := { rl.2 with now := rl.2.now + r.sleeps.sum } }

theorem retryLoop_allFail_result (e : String) (max factor maxDelay : Nat) :
    ∀ fuel attempt delay, max - attempt ≤ fuel →
      (retryLoop (fun _ => (Except.error e : Except String α)) max factor maxDelay
          attempt delay).result = .error e := by
  intro fuel
  induction fuel with
  | zero =>
    intro attempt delay hfuel
    have hm : attempt + 1 ≥ max := by omega
    rw [retryLoop]
    simp [hm]
  | succ fuel ih =>
    intro attempt delay hfuel
    rw [retryLoop]
    by_cases hm : attempt + 1 ≥ max
    · simp [hm]
    · simp only [dif_neg hm]
      exact ih (attempt + 1) (delay * factor) (by omega)

theorem ensureRateLimit_events_cases (cfg : PolicyCfg) (st : CallSt α) :
    (ensureRateLimit cfg st).1 = [] ∨
      ∃ w, (ensureRateLimit cfg st).1 = [Ev.ratelimitDelay w] := by
  simp only [ensureRateLimit]
  repeat' split
  all_goals first
    | (left; rfl)
    | (right; exact ⟨_, rfl⟩)

theorem isModelCallEnd_false_of_isRetry (ev : Ev) (h : ev.isRetry = true) :
    ev.isModelCallEnd = false := by
  cases ev <;> simp_all [Ev.isRetry, Ev.isModelCallEnd]

theorem filter_modelCallEnd_rl_retry (cfg : PolicyCfg) (st : CallSt α)
    (evs : List Ev) (hretry : ∀ ev ∈ evs, ev.isRetry = true) :
    ((ensureRateLimit cfg st).1 ++ evs).filter Ev.isModelCallEnd = [] := by
  rw [List.filter_append]
  have h1 : (ensureRateLimit cfg st).1.filter Ev.isModelCallEnd = [] := by
    rcases ensureRateLimit_events_cases cfg st with h | ⟨w, h⟩ <;>
      rw [h] <;> rfl
  have h2 : evs.filter Ev.isModelCallEnd = [] := by
    rw [List.filter_eq_nil_iff]
    intro ev hev
    rw [isModelCallEnd_false_of_isRetry ev (hretry ev hev)]
    simp
  rw [h1, h2]
  rfl

/-- C4: under a retry policy with attempt ceiling max, a call failing exactly
k < max times and then succeeding succeeds overall, emits exactly the k retry
events carrying attempt numbers 1..k and the error message, sleeps
min(initialDelay * factor^(i-1), maxDelay) after the i-th failure, and invokes
the wrapped thunk k+1 times; a call that always fails propagates the error out
of the policy wrapper and emits zero model:call:end events. -/
theorem retryPolicy_bound (max initial factor maxDelay k : Nat) (e : String)
    (v : α) (hk : k < max) :
    (retryAsync (failThenOk k e v) max initial factor maxDelay).result = .ok v ∧
    (retryAsync (failThenOk k e v) max initial factor maxDelay).events =
      (List.range k).map (fun i => Ev.retryEv (i + 1) e) ∧
    (retryAsync (failThenOk k e v) max initial factor maxDelay).sleeps =
      (List.range k).map (fun i => min (initial * factor ^ i) maxDelay) ∧
    (retryAsync (failThenOk k e v) max initial factor maxDelay).invocations = k + 1 ∧
    (∀ (cfg : PolicyCfg) (st : CallSt α) (tag model : String) (temperature : JVal)
        (msgs : List Msg),
      st.cache.lookup (cacheKeyOfCall tag model temperature msgs) = none →
      (callModelTextRaw cfg st tag model temperature msgs (fun _ => .error e)).result
          = .error e ∧
      ((callModelTextRaw cfg st tag model temperature msgs
          (fun _ => .error e)).events.filter Ev.isModelCallEnd) = []) := by
  have hmain := retryLoop_failThenOk k max factor maxDelay e v hk k 0 initial (by omega)
  have h0 : ∀ i, (0 : Nat) + 1 + i = i + 1 := by intro i; omega
  refine ⟨?_, ?_, ?_, ?_, ?_⟩
  · rw [retryAsync, hmain]
  · rw [retryAsync, hmain]
    apply List.map_congr_left
    intro i _
    rw [h0 i]
  · rw [retryAsync, hmain]
  · rw [retryAsync, hmain]
  · intro cfg st tag model temperature msgs hmiss
    have hres : (retryAsync (fun _ => (Except.error e : Except String α))
        cfg.retryMax cfg.initialDelayMs cfg.factor cfg.maxDelayMs).result = .error e :=
      retryLoop_allFail_result e cfg.retryMax cfg.factor cfg.maxDelayMs
        cfg.retryMax 0 cfg.initialDelayMs (by omega)
    have hretry : ∀ ev ∈ (retryAsync (fun _ => (Except.error e : Except String α))
        cfg.retryMax cfg.initialDelayMs cfg.factor cfg.maxDelayMs).events,
          ev.isRetry = true :=
      retryLoop_events_retry _ cfg.retryMax cfg.factor cfg.maxDelayMs
        cfg.retryMax 0 cfg.initialDelayMs (by omega)
    simp only [callModelTextRaw, hmiss, hres]
    constructor
    · simp
    · exact filter_modelCallEnd_rl_retry cfg st _ hretry

/-- Witness for C4 at k = 1, max = 2. -/
theorem retryPolicy_bound_witness :
    (1 < 2) ∧
    ((retryAsync (failThenOk 1 "boom" "resp") 2 5 2 100).result = .ok "resp" ∧
    (retryAsync (failThenOk 1 "boom" "resp") 2 5 2 100).events =
      (List.range 1).map (fun i => Ev.retryEv (i + 1) "boom") ∧
    (retryAsync (failThenOk 1 "boom" "resp") 2 5 2 100).sleeps =
      (List.range 1).map (fun i => min (5 * 2 ^ i) 100) ∧
    (retryAsync (failThenOk 1 "boom" "resp") 2 5 2 100).invocations = 1 + 1 ∧
    (∀ (cfg : PolicyCfg) (st : CallSt String) (tag model : String)
        (temperature : JVal) (msgs : List Msg),
      st.cache.lookup (cacheKeyOfCall tag model temperature msgs) = none →
      (callModelTextRaw cfg st tag model temperature msgs
          (fun _ => .error "boom")).result = .error "boom" ∧
      ((callModelTextRaw cfg st tag model temperature msgs
          (fun _ => .error "boom")).events.filter Ev.isModelCallEnd) = [])) :=
  ⟨by decide, retryPolicy_bound 2 5 2 100 1 "boom" "resp" (by decide)⟩

theorem filter_retry_rl (cfg : PolicyCfg) (st : CallSt α) :
    (ensureRateLimit cfg st).1.filter Ev.isRetry = [] := by
  rcases ensureRateLimit_events_cases cfg st with h | ⟨w, h⟩ <;> rw [h] <;> rfl

/-- C2 counterexample: with retry ceiling 3, a cache miss and every
invocation rejecting with the timeout error "Timeout after 100ms", the policy
wrapper makes three invocation attempts and emits two retry events for that
error - contradicting the claim that a timeout rejection is propagated
immediately, with no further invocation attempt and no retry event. -/
theorem timeout_not_retried_counterexample :
    (callModelTextRaw ⟨false, none, 3, 5, 2, 100⟩
        (⟨[], none, 0⟩ : CallSt String) "act.decide" "gemini-1.5-pro" JVal.null []
        (fun _ => .error "Timeout after 100ms")).invocations = 3 ∧
    ((callModelTextRaw ⟨false, none, 3, 5, 2, 100⟩
        (⟨[], none, 0⟩ : CallSt String) "act.decide" "gemini-1.5-pro" JVal.null []
        (fun _ => .error "Timeout after 100ms")).events.filter Ev.isRetry).length = 2 := by
  have hall := retryLoop_allFail (α := String) "Timeout after 100ms" 3 2 100 2 0 5 (by omega)
  simp only [callModelTextRaw, List.lookup_nil, retryAsync, hall, ensureRateLimit]
  norm_num [List.range_succ, Ev.isRetry]

/-- C2 amended: a timeout or cancellation rejection of the timeout-wrapped
invocation is retried like any other error. With a cache miss and retry
ceiling max ≥ 1, if every invocation rejects with error e (in particular
"Timeout after Nms" or "Aborted"), the wrapper invokes the thunk exactly max
times, emits max - 1 retry events, emits no model:call:end event, and only
after exhausting the attempts propagates e as the terminal failure of the
wrapped call. -/
theorem timeout_retried_like_any_error (cfg : PolicyCfg) (st : CallSt α)
    (tag model : String) (temperature : JVal) (msgs : List Msg) (e : String)
    (hmiss : st.cache.lookup (cacheKeyOfCall tag model temperature msgs) = none)
    (hmax : 1 ≤ cfg.retryMax) :
    (callModelTextRaw cfg st tag model temperature msgs (fun _ => .error e)).result
        = .error e ∧
    (callModelTextRaw cfg st tag model temperature msgs
        (fun _ => .error e)).invocations = cfg.retryMax ∧
    ((callModelTextRaw cfg st tag model temperature msgs
        (fun _ => .error e)).events.filter Ev.isRetry).length = cfg.retryMax - 1 ∧
    ((callModelTextRaw cfg st tag model temperature msgs
        (fun _ => .error e)).events.filter Ev.isModelCallEnd) = [] := by
  have hall := retryLoop_allFail (α := α) e cfg.retryMax cfg.factor cfg.maxDelayMs
    (cfg.retryMax - 1) 0 cfg.initialDelayMs (by omega)
  have hretryall : ∀ ev ∈ (List.range (cfg.retryMax - 1)).map
      (fun i => Ev.retryEv (0 + 1 + i) e), ev.isRetry = true := by
    intro ev hev
    rcases List.mem_map.mp hev with ⟨i, _, hi⟩
    rw [← hi]
    rfl
  simp only [callModelTextRaw, hmiss, retryAsync, hall]
  refine ⟨trivial, by omega, ?_, ?_⟩
  · rw [List.filter_append, filter_retry_rl,
      List.filter_eq_self.mpr hretryall]
    simp
  · exact filter_modelCallEnd_rl_retry cfg st _ hretryall

/-- Witness for the amended C2 at retry ceiling 2 and the abort error. -/
theorem timeout_retried_like_any_error_witness :
    ((⟨[], none, 0⟩ : CallSt String).cache.lookup
        (cacheKeyOfCall "plan" "gemini-1.5-pro" JVal.null []) = none ∧
      1 ≤ (⟨false, none, 2, 5, 2, 100⟩ : PolicyCfg).retryMax) ∧
    ((callModelTextRaw ⟨false, none, 2, 5, 2, 100⟩ (⟨[], none, 0⟩ : CallSt String)
        "plan" "gemini-1.5-pro" JVal.null [] (fun _ => .error "Aborted")).result
          = .error "Aborted" ∧
    (callModelTextRaw ⟨false, none, 2, 5, 2, 100⟩ (⟨[], none, 0⟩ : CallSt String)
        "plan" "gemini-1.5-pro" JVal.null [] (fun _ => .error "Aborted")).invocations
          = (⟨false, none, 2, 5, 2, 100⟩ : PolicyCfg).retryMax ∧
    ((callModelTextRaw ⟨false, none, 2, 5, 2, 100⟩ (⟨[], none, 0⟩ : CallSt String)
        "plan" "gemini-1.5-pro" JVal.null [] (fun _ => .error "Aborted")).events.filter
          Ev.isRetry).length = (⟨false, none, 2, 5, 2, 100⟩ : PolicyCfg).retryMax - 1 ∧
    ((callModelTextRaw ⟨false, none, 2, 5, 2, 100⟩ (⟨[], none, 0⟩ : CallSt String)
        "plan" "gemini-1.5-pro" JVal.null [] (fun _ => .error "Aborted")).events.filter
          Ev.isModelCallEnd) = []) :=
  ⟨⟨rfl, by decide⟩,
    timeout_retried_like_any_error ⟨false, none, 2, 5, 2, 100⟩ ⟨[], none, 0⟩
      "plan" "gemini-1.5-pro" JVal.null [] "Aborted" rfl (by decide)⟩

/-- C5: model-call memoization is idempotent and bypasses the rest of the
policy. The cache key is a stable, key-order-independent serialization of the
record of phase tag, model id, temperature and message list; a call whose
components hit the cache returns the cached response unchanged, emits exactly
one cache:hit event, performs no rate-limit wait (context unchanged), no
retry, no timeout-wrapped invocation (zero invocations) and no model:call:end
event; and a successful cache-missing call stores its response under the same
key, so a second identical call while the entry is cached is exactly such a
hit. -/
theorem modelCallMemoization (cfg : PolicyCfg) (st : CallSt α)
    (tag model : String) (temperature : JVal) (msgs : List Msg) (v : α)
    (fs fs' : List (String × JVal)) (fn : Nat → Except String α)
    (hp : fs.Perm fs') (hnd : (fs.map Prod.fst).Nodup)
    (hhit : st.cache.lookup (cacheKeyOfCall tag model temperature msgs) = some v) :
    makeCacheKey fs = makeCacheKey fs' ∧
    callModelTextRaw cfg st tag model temperature msgs fn =
      { result := .ok v, fromCache := true,
        events := [Ev.cacheHit (cacheKeyOfCall tag model temperature msgs)],
        invocations := 0, st := st } ∧
    (∀ (st0 : CallSt α) (r : α),
      st0.cache.lookup (cacheKeyOfCall tag model temperature msgs) = none →
      (callModelTextRaw cfg st0 tag model temperature msgs fn).result = .ok r →
      (callModelTextRaw cfg st0 tag model temperature msgs fn).st.cache.lookup
        (cacheKeyOfCall tag model temperature msgs) = some r) := by
  refine ⟨makeCacheKey_perm fs fs' hp hnd, ?_, ?_⟩
  · simp only [callModelTextRaw, hhit]
  · intro st0 r hm hr
    simp only [callModelTextRaw, hm] at hr ⊢
    rcases hres : (retryAsync fn cfg.retryMax cfg.initialDelayMs cfg.factor
        cfg.maxDelayMs).result with e1 | v1
    · simp [hres] at hr
    · simp [hres] at hr
      simpa using hr

/-- Witness for C5 at a concrete cached call and a two-field record. -/
theorem modelCallMemoization_witness :
    (([(("a", JVal.null) : String × JVal), ("b", JVal.num 1)]).Perm
        [("b", JVal.num 1), ("a", JVal.null)] ∧
      (([(("a", JVal.null) : String × JVal), ("b", JVal.num 1)]).map Prod.fst).Nodup ∧
      (⟨[(cacheKeyOfCall "plan" "m" JVal.null [], "resp")], none, 0⟩ :
          CallSt String).cache.lookup (cacheKeyOfCall "plan" "m" JVal.null [])
        = some "resp") ∧
    (makeCacheKey [("a", JVal.null), ("b", JVal.num 1)]
        = makeCacheKey [("b", JVal.num 1), ("a", JVal.null)] ∧
    callModelTextRaw ⟨false, none, 3, 5, 2, 100⟩
        (⟨[(cacheKeyOfCall "plan" "m" JVal.null [], "resp")], none, 0⟩ : CallSt String)
        "plan" "m" JVal.null [] (fun _ => .ok "resp") =
      { result := .ok "resp", fromCache := true,
        events := [Ev.cacheHit (cacheKeyOfCall "plan" "m" JVal.null [])],
        invocations := 0,
        st := ⟨[(cacheKeyOfCall "plan" "m" JVal.null [], "resp")], none, 0⟩ } ∧
    (∀ (st0 : CallSt String) (r : String),
      st0.cache.lookup (cacheKeyOfCall "plan" "m" JVal.null []) = none →
      (callModelTextRaw ⟨false, none, 3, 5, 2, 100⟩ st0 "plan" "m" JVal.null []
          (fun _ => .ok "resp")).result = .ok r →
      (callModelTextRaw ⟨false, none, 3, 5, 2, 100⟩ st0 "plan" "m" JVal.null []
          (fun _ => .ok "resp")).st.cache.lookup
        (cacheKeyOfCall "plan" "m" JVal.null []) = some r)) :=
  ⟨⟨List.Perm.swap ("b", JVal.num 1) ("a", JVal.null) [],
      by simp,
      by rw [List.lookup_cons]; simp⟩,
    modelCallMemoization ⟨false, none, 3, 5, 2, 100⟩
      ⟨[(cacheKeyOfCall "plan" "m" JVal.null [], "resp")], none, 0⟩
      "plan" "m" JVal.null [] "resp"
      [("a", JVal.null), ("b", JVal.num 1)] [("b", JVal.num 1), ("a", JVal.null)]
      (fun _ => .ok "resp")
      (List.Perm.swap ("b", JVal.num 1) ("a", JVal.null) [])
      (by simp)
      (by rw [List.lookup_cons]; simp)⟩

/-- The limiter state a new run starts from: run (src/run.ts lines 91-107)
builds a fresh per-run context with lastAt undefined; the limiter is not read
from or written back to the createLibraryA instance. -/
def runLimiterInit : Option Nat := none

/-- First policy-wrapped calls of two successive runs of the same library
instance, at clock times t1 and t2: each run constructs its own context with
a fresh limiter, so the second run's call starts from runLimiterInit rather
than from the first run's recorded last-call time. -/
def twoRunsFirstCalls (cfg : PolicyCfg) (t1 t2 : Nat) :
    (List Ev × CallSt String) × (List Ev × CallSt String) :=
  (ensureRateLimit cfg ⟨[], runLimiterInit, t1⟩,
   ensureRateLimit cfg ⟨[], runLimiterInit, t2⟩)

/-- C7 counterexample: with rpm 60 (minimum inter-call interval 1000 ms) and
the first calls of two back-to-back runs of one instance only 100 ms apart,
the second call emits no ratelimit:delay event and does not wait (its clock is
unchanged), although less than the minimum interval has elapsed since the
first call - because each run constructs a fresh limiter with lastAt unset
instead of sharing the instance-wide last-call time. -/
theorem sharedLimiter_counterexample :
    (twoRunsFirstCalls ⟨true, some 60, 3, 5, 2, 100⟩ 100000 100100).2.1 = [] ∧
    (twoRunsFirstCalls ⟨true, some 60, 3, 5, 2, 100⟩ 100000 100100).2.2.now = 100100 ∧
    100100 - 100000 < (60000 + 60 - 1) / 60 := by
  decide

/-- C7 amended: the rate limiter's last-call time is shared per run, not per
library instance. run() builds a fresh limiter (lastAt unset) for every run,
so the first policy call of a new run never waits on account of an earlier
run once the clock passed the minimum interval; within a single run, a call
issued when less than ceil(60000/rpm) ms have elapsed since the run's
recorded last call sleeps exactly the remainder, emits ratelimit:delay with
that wait, and records a last-call time spaced a full interval after the
previous one. -/
theorem rateLimiter_per_run (cfg : PolicyCfg) (rpm t1 t2 : Nat)
    (cache : List (String × α))
    (henabled : cfg.rateEnabled = true) (hrpm : cfg.rpm = some rpm)
    (hpos : 0 < rpm) (hle : t1 ≤ t2)
    (hgap : t2 - t1 < (60000 + rpm - 1) / rpm) :
    (ensureRateLimit cfg ⟨cache, some t1, t2⟩).1
        = [Ev.ratelimitDelay ((60000 + rpm - 1) / rpm - (t2 - t1))] ∧
    (ensureRateLimit cfg ⟨cache, some t1, t2⟩).2.now
        = t1 + (60000 + rpm - 1) / rpm ∧
    (ensureRateLimit cfg ⟨cache, some t1, t2⟩).2.lastAt
        = some (t1 + (60000 + rpm - 1) / rpm) ∧
    (∀ t, (60000 + rpm - 1) / rpm ≤ t →
      (ensureRateLimit cfg ⟨cache, runLimiterInit, t⟩).1 = []) := by
  have hrpm0 : ¬ rpm = 0 := by omega
  have hwithin : ensureRateLimit cfg (⟨cache, some t1, t2⟩ : CallSt α) =
      ([Ev.ratelimitDelay ((60000 + rpm - 1) / rpm - (t2 - t1))],
       ⟨cache, some (t2 + ((60000 + rpm - 1) / rpm - (t2 - t1))),
        t2 + ((60000 + rpm - 1) / rpm - (t2 - t1))⟩) := by
    simp only [ensureRateLimit, henabled, hrpm, not_true, if_false,
      Option.getD_some]
    rw [if_neg hrpm0, if_pos (by omega)]
  refine ⟨?_, ?_, ?_, ?_⟩
  · rw [hwithin]
  · rw [hwithin]
    show t2 + ((60000 + rpm - 1) / rpm - (t2 - t1)) = t1 + (60000 + rpm - 1) / rpm
    omega
  · rw [hwithin]
    show some (t2 + ((60000 + rpm - 1) / rpm - (t2 - t1)))
        = some (t1 + (60000 + rpm - 1) / rpm)
    congr 1
    omega
  · intro t ht
    simp only [ensureRateLimit, henabled, hrpm, not_true, if_false,
      runLimiterInit, Option.getD_none]
    rw [if_neg hrpm0, if_neg (by omega)]

/-- Witness for the amended C7 at rpm 60 and calls 100 ms apart in one run. -/
theorem rateLimiter_per_run_witness :
    ((⟨true, some 60, 3, 5, 2, 100⟩ : PolicyCfg).rateEnabled = true ∧
      (⟨true, some 60, 3, 5, 2, 100⟩ : PolicyCfg).rpm = some 60 ∧
      0 < 60 ∧ 10000 ≤ 10100 ∧ 10100 - 10000 < (60000 + 60 - 1) / 60) ∧
    ((ensureRateLimit ⟨true, some 60, 3, 5, 2, 100⟩
        (⟨[], some 10000, 10100⟩ : CallSt String)).1
        = [Ev.ratelimitDelay ((60000 + 60 - 1) / 60 - (10100 - 10000))] ∧
    (ensureRateLimit ⟨true, some 60, 3, 5, 2, 100⟩
        (⟨[], some 10000, 10100⟩ : CallSt String)).2.now
        = 10000 + (60000 + 60 - 1) / 60 ∧
    (ensureRateLimit ⟨true, some 60, 3, 5, 2, 100⟩
        (⟨[], some 10000, 10100⟩ : CallSt String)).2.lastAt
        = some (10000 + (60000 + 60 - 1) / 60) ∧
    (∀ t, (60000 + 60 - 1) / 60 ≤ t →
      (ensureRateLimit ⟨true, some 60, 3, 5, 2, 100⟩
        (⟨[], runLimiterInit, t⟩ : CallSt String)).1 = [])) :=
  ⟨⟨rfl, rfl, by decide, by decide, by decide⟩,
    rateLimiter_per_run ⟨true, some 60, 3, 5, 2, 100⟩ 60 10000 10100 []
      rfl rfl (by decide) (by decide) (by decide)⟩

/-- One tool call as returned by the model (tool_calls entry:
name and arguments). -/
structure ToolCall where
  name : String
  args : JVal

/-- A registered tool (src/core/types.ts ToolDefinition): name, enabled and
hidden flags, the Zod-schema argument parse (which may throw), and the
execute function (which may throw). -/
structure ToolDef where
  name : String
  enabled : Option Bool
  hidden : Bool
  parse : JVal → Except String JVal
  exec : JVal → Except String JVal

/-- A conversation-history message (src/core/types.ts MemoryMessage). -/
structure MemMsg where
  role : String
  name : Option String
  content : String

/-- Whether a tool is visible to the registry map of executeToolCalls
(entries with enabled === false or hidden are skipped). -/
def keptTool (t : ToolDef) : Bool :=
  !(t.enabled == some false) && !t.hidden

/-- The Map built by executeToolCalls (src/core/tools.ts lines 54-58):
later entries with the same name overwrite earlier ones, so lookup finds the
last kept tool with the given name. -/
def lookupTool (tools : List ToolDef) (nm : String) : Option ToolDef :=
  ((tools.filter keptTool).reverse).find? (fun t => t.name == nm)

/-- JSON error payload JSON.stringify({error: msg}). -/
def errorPayload (msg : String) : String :=
  serializeJVal (JVal.obj [("error", JVal.str msg)])

/-- Processing of a single tool call by executeToolCalls: an unregistered
name yields a tool message with an error payload naming the tool; otherwise
the arguments are parsed and the tool executed, any thrown error being
captured as an error payload instead of propagating. -/
def processToolCall (tools : List ToolDef) (call : ToolCall) : MemMsg :=
  match lookupTool tools call.name with
  | none =>
    ⟨"tool", some call.name, errorPayload ("未注册的工具: " ++ call.name)⟩
  | some td =>
    match td.parse call.args with
    | .error e => ⟨"tool", some call.name, errorPayload e⟩
    | .ok parsed =>
      match td.exec parsed with
      | .ok res => ⟨"tool", some call.name, serializeJVal res⟩
      | .error e => ⟨"tool", some call.name, errorPayload e⟩

/-- executeToolCalls (src/core/tools.ts lines 44-97): every call in the batch
is processed in order into a tool message; the function is total (never
throws). -/
def executeToolCalls (tools : List ToolDef) (calls : List ToolCall) : List MemMsg :=
  calls.map (processToolCall tools)

/-- The remainder of the act node after the tool-decision call
(src/graph/graph.ts lines 312-342): execute the tool calls, append the tool
messages to history when there are any, then produce the candidate answer
(the summarize model call's text) and append it as an assistant message;
usedTools is the tool-message names with empty names filtered out. -/
def actToolPhase (tools : List ToolDef) (calls : List ToolCall)
    (history : List MemMsg) (candidate : String) :
    List MemMsg × String × List String :=
  let toolMessages := executeToolCalls tools calls
  let h1 := if toolMessages.length > 0 then history ++ toolMessages else history
  let usedTools := (toolMessages.map (fun m => m.name.getD "")).filter (fun s => s ≠ "")
  (h1 ++ [⟨"assistant", none, candidate⟩], candidate, usedTools)

/-- C8: a tool call whose name is not in the registry map does not make the
run throw: the batch is processed in full, the unknown call produces a
tool-role message whose content is a JSON error payload naming the unknown
tool, the remaining calls are processed unchanged, and the act node appends
the messages to history and continues to the candidate-answer step. -/
theorem unregistered_tool_recovered (tools : List ToolDef)
    (pre post : List ToolCall) (bad : ToolCall)
    (history : List MemMsg) (candidate : String)
    (hunknown : lookupTool tools bad.name = none) :
    executeToolCalls tools (pre ++ bad :: post) =
      executeToolCalls tools pre ++
        ⟨"tool", some bad.name, errorPayload ("未注册的工具: " ++ bad.name)⟩ ::
          executeToolCalls tools post ∧
    (executeToolCalls tools (pre ++ bad :: post)).length
      = pre.length + 1 + post.length ∧
    (actToolPhase tools (pre ++ bad :: post) history candidate).1
      = history ++ executeToolCalls tools (pre ++ bad :: post) ++
          [⟨"assistant", none, candidate⟩] ∧
    (actToolPhase tools (pre ++ bad :: post) history candidate).2.1 = candidate := by
  have hbatch : executeToolCalls tools (pre ++ bad :: post) =
      executeToolCalls tools pre ++
        ⟨"tool", some bad.name, errorPayload ("未注册的工具: " ++ bad.name)⟩ ::
          executeToolCalls tools post := by
    simp only [executeToolCalls, List.map_append, List.map_cons]
    rw [show processToolCall tools bad =
      ⟨"tool", some bad.name, errorPayload ("未注册的工具: " ++ bad.name)⟩ by
        simp [processToolCall, hunknown]]
  have hlen : (executeToolCalls tools (pre ++ bad :: post)).length
      = pre.length + 1 + post.length := by
    simp [executeToolCalls]
    omega
  have hpos : 0 < (executeToolCalls tools (pre ++ bad :: post)).length := by
    omega
  refine ⟨hbatch, hlen, ?_, rfl⟩
  simp only [actToolPhase]
  rw [if_pos hpos]

/-- Witness for C8: an empty registry and a single unknown call "search". -/
theorem unregistered_tool_recovered_witness :
    lookupTool [] "search" = none ∧
    (executeToolCalls [] ([] ++ (⟨"search", JVal.null⟩ : ToolCall) :: []) =
      executeToolCalls [] [] ++
        (⟨"tool", some "search", errorPayload ("未注册的工具: " ++ "search")⟩ : MemMsg) ::
          executeToolCalls [] [] ∧
    (executeToolCalls [] ([] ++ (⟨"search", JVal.null⟩ : ToolCall) :: [])).length
      = List.length ([] : List ToolCall) + 1 + List.length ([] : List ToolCall) ∧
    (actToolPhase [] ([] ++ (⟨"search", JVal.null⟩ : ToolCall) :: []) [] "ans").1
      = [] ++ executeToolCalls [] ([] ++ (⟨"search", JVal.null⟩ : ToolCall) :: []) ++
          [⟨"assistant", none, "ans"⟩] ∧
    (actToolPhase [] ([] ++ (⟨"search", JVal.null⟩ : ToolCall) :: []) [] "ans").2.1
      = "ans") :=
  ⟨rfl, unregistered_tool_recovered [] [] [] ⟨"search", JVal.null⟩ [] "ans" rfl⟩

/-- Worker of the Array.from(new Set(xs)) deduplication used for
meta.usedTools (run.ts line 143): keep the first occurrence of each element,
in insertion order. -/
def jsSetDedupGo (seen : List String) : List String → List String
  | [] => []
  | x :: xs =>
    if x ∈ seen then jsSetDedupGo seen xs
    else x :: jsSetDedupGo (x :: seen) xs

/-- Array.from(new Set(l)): l without duplicates, first occurrences kept. -/
def jsSetDedup (l : List String) : List String := jsSetDedupGo [] l

theorem mem_jsSetDedupGo :
    ∀ (l : List String) (seen : List String) (x : String),
      x ∈ jsSetDedupGo seen l ↔ (x ∈ l ∧ x ∉ seen) := by
  intro l
  induction l with
  | nil => intro seen x; simp [jsSetDedupGo]
  | cons y ys ih =>
    intro seen x
    simp only [jsSetDedupGo]
    by_cases hy : y ∈ seen
    · rw [if_pos hy, ih]
      simp only [List.mem_cons]
      by_cases hxy : x = y
      · subst hxy; tauto
      · tauto
    · rw [if_neg hy]
      simp only [List.mem_cons, ih, List.mem_cons]
      by_cases hxy : x = y
      · subst hxy; tauto
      · tauto

theorem nodup_jsSetDedupGo :
    ∀ (l : List String) (seen : List String), (jsSetDedupGo seen l).Nodup := by
  intro l
  induction l with
  | nil => intro seen; simp [jsSetDedupGo]
  | cons y ys ih =>
    intro seen
    simp only [jsSetDedupGo]
    by_cases hy : y ∈ seen
    · rw [if_pos hy]; exact ih seen
    · rw [if_neg hy]
      refine List.nodup_cons.mpr ⟨?_, ih (y :: seen)⟩
      intro hmem
      rcases (mem_jsSetDedupGo ys (y :: seen) y).mp hmem with ⟨_, hns⟩
      exact hns (List.mem_cons_self y seen)

/-- The run metadata returned by run() (src/run.ts lines 138-146). -/
structure RunMeta where
  steps : Nat
  durationMs : Nat
  model : String
  usedTools : List String
  cacheHit : Bool

/-- The result of run() (src/run.ts lines 148-153). -/
structure RunResultM where
  text : Option String
  object : Option JVal
  meta : RunMeta

/-- Construction of the result of run() from the final graph state
(src/run.ts lines 138-153): text is undefined when a structured object was
produced, otherwise the candidate answer (or the empty string); meta carries
the final step count (defaulting to maxSteps), the duration, the model id,
the deduplicated used-tool names and the cache-hit flag. -/
def buildRunResult (finalObject : Option JVal) (candidateAnswer : Option String)
    (stepFinal : Option Nat) (maxSteps durationMs : Nat) (model : String)
    (usedTools : List String) (cacheHit : Bool) : RunResultM :=
  { text := match finalObject with
      | some _ => none
      | none => some (candidateAnswer.getD "")
    object := finalObject
    meta := { steps := stepFinal.getD maxSteps, durationMs := durationMs,
              model := model, usedTools := jsSetDedup usedTools,
              cacheHit := cacheHit } }

/-- C6: run() returns structured output and text mutually exclusively - with
an object produced by validation, object holds it and text is absent;
otherwise text holds the candidate answer and object is absent - and
meta.usedTools contains each used tool name at most once (exactly the used
names), while meta carries step count, duration and model id. -/
theorem runResult_exclusive (o : JVal) (fo : Option JVal)
    (candidateAnswer : Option String) (stepFinal : Option Nat)
    (maxSteps durationMs : Nat) (model : String)
    (usedTools : List String) (cacheHit : Bool) :
    (buildRunResult (some o) candidateAnswer stepFinal maxSteps durationMs
        model usedTools cacheHit).object = some o ∧
    (buildRunResult (some o) candidateAnswer stepFinal maxSteps durationMs
        model usedTools cacheHit).text = none ∧
    (buildRunResult none candidateAnswer stepFinal maxSteps durationMs
        model usedTools cacheHit).text = some (candidateAnswer.getD "") ∧
    (buildRunResult none candidateAnswer stepFinal maxSteps durationMs
        model usedTools cacheHit).object = none ∧
    (∀ t, (buildRunResult fo candidateAnswer stepFinal maxSteps durationMs
        model usedTools cacheHit).meta.usedTools.count t ≤ 1) ∧
    (∀ t, t ∈ (buildRunResult fo candidateAnswer stepFinal maxSteps durationMs
        model usedTools cacheHit).meta.usedTools ↔ t ∈ usedTools) ∧
    (buildRunResult fo candidateAnswer stepFinal maxSteps durationMs
        model usedTools cacheHit).meta.steps = stepFinal.getD maxSteps ∧
    (buildRunResult fo candidateAnswer stepFinal maxSteps durationMs
        model usedTools cacheHit).meta.durationMs = durationMs ∧
    (buildRunResult fo candidateAnswer stepFinal maxSteps durationMs
        model usedTools cacheHit).meta.model = model := by
  refine ⟨rfl, rfl, rfl, rfl, ?_, ?_, rfl, rfl, rfl⟩
  · intro t
    exact List.nodup_iff_count_le_one.mp (nodup_jsSetDedupGo usedTools []) t
  · intro t
    show t ∈ jsSetDedup usedTools ↔ t ∈ usedTools
    rw [jsSetDedup, mem_jsSetDedupGo]
    simp

/-- Execution of one graph node as written in buildReasoningGraph
(src/graph/graph.ts lines 261-413, 563-578): the node first awaits
beforeNode (emitting node:enter), then runs its body - which emits its own
events and may throw - and awaits afterNode (emitting node:exit) only on
normal completion; there is no try/finally, so a thrown body skips the
node:exit emission and the error propagates. `body` is the body's emitted
events paired with its result or thrown error. -/
def nodeExec (name : String) (stp : Nat) (body : List Ev × Except String α) :
    List Ev × Except String α :=
  match body with
  | (evs, .ok a) =>
    (Ev.nodeEnter name stp :: (evs ++ [Ev.nodeExit name stp]), .ok a)
  | (evs, .error e) =>
    (Ev.nodeEnter name stp :: evs, .error e)

/-- C9 counterexample: a plan node whose policy-wrapped model call rejects
(here after one retry event) emits node:enter but no node:exit - the node
bodies have no try/finally, so the exit event is skipped when the work
fails, contradicting the claim that node:exit is emitted regardless of
success or failure. -/
theorem nodeExit_on_failure_counterexample :
    Ev.nodeEnter "plan" 0 ∈ (nodeExec "plan" 0
      ([Ev.retryEv 1 "boom"], (Except.error "boom" : Except String String))).1 ∧
    Ev.nodeExit "plan" 0 ∉ (nodeExec "plan" 0
      ([Ev.retryEv 1 "boom"], (Except.error "boom" : Except String String))).1 := by
  decide

/-- C9 amended: every phase emits node:enter before its work begins; when the
work completes without throwing, node:exit is emitted after it, so the
phase's trace is node:enter, then the body's events in order, then node:exit
(enter first, exit last); when the work throws, the trace is node:enter
followed by the body's events and no node:exit is emitted. -/
theorem node_events_order (name : String) (stp : Nat) (evs : List Ev)
    (a : α) (e : String) :
    (nodeExec name stp (evs, .ok a)).1
        = Ev.nodeEnter name stp :: (evs ++ [Ev.nodeExit name stp]) ∧
    (nodeExec name stp (evs, (Except.error e : Except String α))).1
        = Ev.nodeEnter name stp :: evs ∧
    (nodeExec name stp (evs, .ok a)).1.head? = some (Ev.nodeEnter name stp) ∧
    (nodeExec name stp (evs, (Except.error e : Except String α))).1.head?
        = some (Ev.nodeEnter name stp) ∧
    (nodeExec name stp (evs, .ok a)).1.getLast? = some (Ev.nodeExit name stp) := by
  refine ⟨rfl, rfl, rfl, rfl, ?_⟩
  rw [show (nodeExec name stp (evs, .ok a)).1
      = (Ev.nodeEnter name stp :: evs) ++ [Ev.nodeExit name stp] from rfl]
  rw [List.getLast?_concat]

/-- A chunk yielded by stream() (src/core/types.ts StreamChunk). -/
structure StreamChunk where
  delta : Option String
  event : Option String
  meta : Option RunMeta

/-- The delta loop of stream() (src/run.ts lines 317-328): for each text
increment arriving from the model stream (`deltas`, checked at index i
onward), the cancellation signal is inspected first - if it is aborted the
loop breaks without yielding that increment - otherwise the increment is
appended to the accumulated text and yielded as a delta chunk. Returns the
yielded chunks and the accumulated text. -/
def streamDeltaLoop (aborted : Nat → Bool) : List String → Nat → List StreamChunk × String
  | [], _ => ([], "")
  | d :: ds, i =>
    if aborted i then ([], "")
    else
      let rest := streamDeltaLoop aborted ds (i + 1)
      (⟨some d, none, none⟩ :: rest.1, d ++ rest.2)

/-- stream() after the plan and tool phases (src/run.ts lines 268-348): with
a declared schema no text streaming happens and the single end chunk
carrying the run metadata is yielded; otherwise the delta loop runs, the
accumulated text is appended to history as an assistant message, and the
single end chunk carrying the metadata is yielded last. -/
def streamRun (schemaDeclared : Bool) (aborted : Nat → Bool)
    (deltas : List String) (history : List MemMsg) (meta : RunMeta) :
    List StreamChunk × List MemMsg :=
  if schemaDeclared then
    ([⟨none, some "end", some meta⟩], history)
  else
    let r := streamDeltaLoop aborted deltas 0
    (r.1 ++ [⟨none, some "end", some meta⟩],
     history ++ [⟨"assistant", none, r.2⟩])

theorem streamDeltaLoop_no_end (aborted : Nat → Bool) :
    ∀ (ds : List String) (i : Nat),
      (streamDeltaLoop aborted ds i).1.filter
        (fun c => c.event == some "end") = [] := by
  intro ds
  induction ds with
  | nil => intro i; rfl
  | cons d ds ih =>
    intro i
    simp only [streamDeltaLoop]
    by_cases h : aborted i
    · rw [if_pos h]; rfl
    · rw [if_neg h]
      simp only [List.filter_cons]
      rw [ih (i + 1)]
      rfl

/-- Concatenation of a list of strings, in order. -/
def concatStrings : List String → String
  | [] => ""
  | s :: ss => s ++ concatStrings ss

theorem streamDeltaLoop_join (aborted : Nat → Bool) :
    ∀ (ds : List String) (i : Nat),
      concatStrings ((streamDeltaLoop aborted ds i).1.filterMap
        (fun c => c.delta)) = (streamDeltaLoop aborted ds i).2 := by
  intro ds
  induction ds with
  | nil => intro i; rfl
  | cons d ds ih =>
    intro i
    simp only [streamDeltaLoop]
    by_cases h : aborted i
    · rw [if_pos h]; rfl
    · rw [if_neg h]
      simp only [List.filterMap_cons, concatStrings]
      rw [ih (i + 1)]

theorem streamDeltaLoop_delta_count (aborted : Nat → Bool) :
    ∀ (ds : List String) (i : Nat),
      ((streamDeltaLoop aborted ds i).1.filterMap (fun c => c.delta)).length
        = (streamDeltaLoop aborted ds i).1.length := by
  intro ds
  induction ds with
  | nil => intro i; rfl
  | cons d ds ih =>
    intro i
    simp only [streamDeltaLoop]
    by_cases h : aborted i
    · rw [if_pos h]; rfl
    · rw [if_neg h]
      simp only [List.filterMap_cons, List.length_cons]
      rw [ih (i + 1)]

theorem streamDeltaLoop_abort_bound (aborted : Nat → Bool) (k : Nat)
    (hmono : ∀ i j, i ≤ j → aborted i = true → aborted j = true)
    (habort : aborted k = true) :
    ∀ (ds : List String) (i : Nat),
      (streamDeltaLoop aborted ds i).1.length ≤ k - i := by
  intro ds
  induction ds with
  | nil => intro i; simp [streamDeltaLoop]
  | cons d ds ih =>
    intro i
    simp only [streamDeltaLoop]
    by_cases h : aborted i
    · rw [if_pos h]; simp
    · rw [if_neg h]
      have hik : i < k := by
        by_contra hik
        exact h (hmono k i (by omega) habort)
      simp only [List.length_cons]
      have := ih (i + 1)
      omega

/-- C10: every completing stream() ends with exactly one end chunk carrying
run metadata, yielded last, in both the text and the structured branch; when
the cancellation signal aborts mid-stream (it is aborted at index k and abort
is irrevocable), at most k delta chunks are yielded, the text accumulated
from exactly the yielded deltas is still appended to history as an assistant
message, and the single end chunk follows as the last element; the schema
branch yields no delta chunks and leaves history unchanged. -/
theorem stream_end_chunk (aborted : Nat → Bool) (deltas : List String)
    (history : List MemMsg) (meta : RunMeta) (k : Nat)
    (hmono : ∀ i j, i ≤ j → aborted i = true → aborted j = true)
    (habort : aborted k = true) :
    (∀ sd : Bool, (streamRun sd aborted deltas history meta).1.getLast?
        = some ⟨none, some "end", some meta⟩) ∧
    (∀ sd : Bool, ((streamRun sd aborted deltas history meta).1.filter
        (fun c => c.event == some "end")).length = 1) ∧
    ((streamRun false aborted deltas history meta).1.filterMap
        (fun c => c.delta)).length ≤ k ∧
    (streamRun false aborted deltas history meta).2
      = history ++ [⟨"assistant", none,
          concatStrings ((streamRun false aborted deltas history meta).1.filterMap
            (fun c => c.delta))⟩] ∧
    (streamRun true aborted deltas history meta).1
      = [⟨none, some "end", some meta⟩] ∧
    ((streamRun true aborted deltas history meta).1.filterMap
        (fun c => c.delta)) = [] ∧
    (streamRun true aborted deltas history meta).2 = history := by
  have hfmap : (streamRun false aborted deltas history meta).1.filterMap
      (fun c => c.delta)
      = (streamDeltaLoop aborted deltas 0).1.filterMap (fun c => c.delta) := by
    simp only [streamRun, if_neg (Bool.false_ne_true)]
    rw [List.filterMap_append]
    simp
  refine ⟨?_, ?_, ?_, ?_, rfl, rfl, rfl⟩
  · intro sd
    cases sd
    · simp only [streamRun, if_neg (Bool.false_ne_true)]
      rw [List.getLast?_concat]
    · rfl
  · intro sd
    cases sd
    · simp only [streamRun, if_neg (Bool.false_ne_true)]
      rw [List.filter_append, streamDeltaLoop_no_end]
      rfl
    · rfl
  · rw [hfmap, streamDeltaLoop_delta_count]
    have := streamDeltaLoop_abort_bound aborted k hmono habort deltas 0
    omega
  · rw [hfmap, streamDeltaLoop_join]
    simp only [streamRun, if_neg (Bool.false_ne_true)]

/-- Witness for C10 with three increments and a signal aborted from index 1. -/
theorem stream_end_chunk_witness :
    ((∀ i j, i ≤ j → (fun i => decide (1 ≤ i)) i = true →
        (fun i => decide (1 ≤ i)) j = true) ∧
      (fun i => decide (1 ≤ i)) 5 = true) ∧
    ((∀ sd : Bool, (streamRun sd (fun i => decide (1 ≤ i)) ["a", "b", "c"] []
        ⟨1, 2, "m", [], false⟩).1.getLast?
        = some ⟨none, some "end", some ⟨1, 2, "m", [], false⟩⟩) ∧
    (∀ sd : Bool, ((streamRun sd (fun i => decide (1 ≤ i)) ["a", "b", "c"] []
        ⟨1, 2, "m", [], false⟩).1.filter
        (fun c => c.event == some "end")).length = 1) ∧
    ((streamRun false (fun i => decide (1 ≤ i)) ["a", "b", "c"] []
        ⟨1, 2, "m", [], false⟩).1.filterMap (fun c => c.delta)).length ≤ 5 ∧
    (streamRun false (fun i => decide (1 ≤ i)) ["a", "b", "c"] []
        ⟨1, 2, "m", [], false⟩).2
      = [] ++ [⟨"assistant", none,
          concatStrings ((streamRun false (fun i => decide (1 ≤ i)) ["a", "b", "c"] []
            ⟨1, 2, "m", [], false⟩).1.filterMap (fun c => c.delta))⟩] ∧
    (streamRun true (fun i => decide (1 ≤ i)) ["a", "b", "c"] []
        ⟨1, 2, "m", [], false⟩).1
      = [⟨none, some "end", some ⟨1, 2, "m", [], false⟩⟩] ∧
    ((streamRun true (fun i => decide (1 ≤ i)) ["a", "b", "c"] []
        ⟨1, 2, "m", [], false⟩).1.filterMap (fun c => c.delta)) = [] ∧
    (streamRun true (fun i => decide (1 ≤ i)) ["a", "b", "c"] []
        ⟨1, 2, "m", [], false⟩).2 = []) :=
  ⟨⟨fun i j hij hi => by
      simp only [decide_eq_true_eq] at hi ⊢
      omega,
    by decide⟩,
    stream_end_chunk (fun i => decide (1 ≤ i)) ["a", "b", "c"] []
      ⟨1, 2, "m", [], false⟩ 5
      (fun i j hij hi => by
        simp only [decide_eq_true_eq] at hi ⊢
        omega)
      (by decide)⟩
